import Mathlib

/-!
Verification of the distributed cache repository (Go).

The Go sources are shallowly embedded: pure functions become Lean
functions, stateful methods become explicit state passing, machine
integers become Nat or Int, fallible calls return Except, and a call
that would dereference a nil pointer (a crash) returns Option.none.
Each namespace mirrors one Go package or file:

* `Lru`    — the lru package (lru.Cache).
* `CHash`  — the consistenthash package (consistenthash.Map).
* `GoStd`  — the pieces of the Go standard library the code calls
             (crc32.ChecksumIEEE, url.QueryEscape, fmt.Sprint on
             string operands, UTF-8 bytes of a string).
* `Pool`   — http.go (HttpPool, httpGetter).
* `DCache` — group.go and the cache shell (Group, cache, registry).
* `SFM`    — an interleaving model of singleflight.Do for the
             concurrency claim; every mutex-protected region of the Go
             code is one atomic transition, which is sound because no
             other thread can observe a state in the middle of a held
             lock, and the remaining code between lock regions is local
             to one thread except for the WaitGroup signal, modelled by
             the done flag.
-/

/-- Go error values. The code distinguishes errors only by identity, so
messages are abstracted: `invalidKey` is the error Group.Get builds for
an empty key (group.go line 77), and `msg` stands for any other error
value produced by a backing store or a peer. -/
inductive GoErr where
  | invalidKey : GoErr
  | msg : String → GoErr
deriving DecidableEq

/-- UTF-8 bytes of one character, as Go produces for []byte(string). -/
def charUtf8 (c : Char) : List Nat :=
  let n := c.toNat
  if n < 0x80 then [n]
  else if n < 0x800 then
    [0xC0 ||| (n >>> 6), 0x80 ||| (n &&& 0x3F)]
  else if n < 0x10000 then
    [0xE0 ||| (n >>> 12), 0x80 ||| ((n >>> 6) &&& 0x3F), 0x80 ||| (n &&& 0x3F)]
  else
    [0xF0 ||| (n >>> 18), 0x80 ||| ((n >>> 12) &&& 0x3F),
     0x80 ||| ((n >>> 6) &&& 0x3F), 0x80 ||| (n &&& 0x3F)]

/-- Bytes of a Go string: the UTF-8 encoding of its characters. -/
def strBytes (s : String) : List Nat :=
  s.data.foldr (fun c acc => charUtf8 c ++ acc) []

/-- Byte length of a Go string, as the builtin len on a string. -/
def goLen (s : String) : Nat := (strBytes s).length

/-- Insert a number into an already sorted list, keeping it sorted. -/
def insertNat (x : Nat) : List Nat → List Nat
  | [] => [x]
  | y :: tl => if x ≤ y then x :: y :: tl else y :: insertNat x tl

/-- Ascending sort, as sort.Ints. Over numbers the ascending
rearrangement of a list is unique, so any correct sort agrees with the
one the Go runtime uses. -/
def sortNat : List Nat → List Nat
  | [] => []
  | x :: tl => insertNat x (sortNat tl)

/-- Assignment m[k] = a on a Go map modelled as an association list:
replace the binding of k if present, otherwise append it. -/
def assocUpd {κ α : Type} [DecidableEq κ] : List (κ × α) → κ → α → List (κ × α)
  | [], k, a => [(k, a)]
  | (k2, a2) :: tl, k, a =>
      if k2 = k then (k, a) :: tl else (k2, a2) :: assocUpd tl k a

/-- Read m[k] on a Go map modelled as an association list; none when the
key is absent (the Go read would yield the zero value). -/
def assocFind {κ α : Type} [DecidableEq κ] : List (κ × α) → κ → Option α
  | [], _ => none
  | (k2, a2) :: tl, k => if k2 = k then some a2 else assocFind tl k

/-- Values storable in the lru cache: Go's lru.Value interface, a value
exposing a byte length. -/
class GoValue (V : Type) where
  len : V → Nat

instance : GoValue String := ⟨goLen⟩

namespace Lru

/-- State of lru.Cache. The Go struct keeps a doubly linked list and a
map that always hold the same entries; both are modelled by the one
list `entries`, most recently used first. The optional OnEvicted
callback is not modelled: no claim mentions it and it does not feed
back into the cache state. -/
structure Cache (V : Type) where
  maxBytes : Int
  usedBytes : Int
  entries : List (String × V)
deriving DecidableEq

/-- Go int64 size of one entry: len(key) + value.Len(). -/
def esize {V : Type} [GoValue V] (e : String × V) : Int :=
  (goLen e.1 : Int) + (GoValue.len e.2 : Int)

/-- Sum of entry sizes, the quantity usedBytes accounts for. -/
def sizeSum {V : Type} [GoValue V] : List (String × V) → Int
  | [] => 0
  | e :: tl => esize e + sizeSum tl

/-- lru.NewCache: empty cache with the given capacity. -/
def NewCache {V : Type} (maxBytes : Int) : Cache V :=
  { maxBytes := maxBytes, usedBytes := 0, entries := [] }

/-- Find the entry of a key and detach it from the list; none when the
key is absent. Mirrors the map lookup c.cache[key] plus the removal the
list move needs. -/
def lookupMove {V : Type} (k : String) :
    List (String × V) → Option (V × List (String × V))
  | [] => none
  | (k2, v) :: tl =>
      if k2 = k then some (v, tl)
      else (lookupMove k tl).map (fun r => (r.1, (k2, v) :: r.2))

/-- lru.Cache.Get: on a hit, move the entry to the front and return its
value; the cache state is returned because the move mutates it. -/
def Get {V : Type} (c : Cache V) (k : String) : Option V × Cache V :=
  match lookupMove k c.entries with
  | some (v, rest) => (some v, { c with entries := (k, v) :: rest })
  | none => (none, c)

/-- lru.Cache.Remove: drop the least recently used entry (the back of
the list) and release its bytes; no-op on an empty cache. -/
def Remove {V : Type} [GoValue V] (c : Cache V) : Cache V :=
  match c.entries.getLast? with
  | none => c
  | some e =>
      { c with entries := c.entries.dropLast, usedBytes := c.usedBytes - esize e }

/-- Body of the eviction loop of lru.Cache.Add, with explicit fuel:
while maxBytes > 0 and usedBytes >= maxBytes, Remove. The Go loop body
is a no-op once the list is empty (and the Go loop would then spin
forever, a state the accounting invariant proves unreachable), so the
guard also stops on an empty list and entries.length is enough fuel. -/
def evictFuel {V : Type} [GoValue V] : Nat → Cache V → Cache V
  | 0, c => c
  | n + 1, c =>
      if 0 < c.maxBytes ∧ c.maxBytes ≤ c.usedBytes ∧ c.entries.length ≠ 0 then
        evictFuel n (Remove c)
      else c

/-- Eviction loop of lru.Cache.Add. -/
def evict {V : Type} [GoValue V] (c : Cache V) : Cache V :=
  evictFuel c.entries.length c

/-- lru.Cache.Add: update in place and move to front when the key
exists, otherwise push a fresh entry to the front; then run the
eviction loop. -/
def Add {V : Type} [GoValue V] (c : Cache V) (k : String) (v : V) : Cache V :=
  match lookupMove k c.entries with
  | some (old, rest) =>
      evict { c with
              entries := (k, v) :: rest,
              usedBytes := c.usedBytes + (GoValue.len v : Int) - (GoValue.len old : Int) }
  | none =>
      evict { c with
              entries := (k, v) :: c.entries,
              usedBytes := c.usedBytes + (goLen k : Int) + (GoValue.len v : Int) }

/-- lru.Cache.Len: number of entries. -/
def Len {V : Type} (c : Cache V) : Nat := c.entries.length

/-- Whether a key is present in the cache. -/
def containsKey {V : Type} (c : Cache V) (k : String) : Bool :=
  c.entries.any (fun e => e.1 == k)

/-- usedBytes equals the sum of entry sizes, the accounting invariant
of section 8 of the specification. -/
def accounted {V : Type} [GoValue V] (c : Cache V) : Prop :=
  c.usedBytes = sizeSum c.entries

/-- Cache states reachable from NewCache by Add and Get. -/
inductive ReachCache {V : Type} [GoValue V] : Cache V → Prop where
  | new (m : Int) : ReachCache (NewCache m)
  | add (c : Cache V) (k : String) (v : V) :
      ReachCache c → ReachCache (Add c k v)
  | get (c : Cache V) (k : String) :
      ReachCache c → ReachCache (Get c k).2

end Lru

namespace GoStd

/-- One bit-level round of CRC32: shift right, conditionally folding in
the reversed IEEE polynomial 0xEDB88320. -/
def crcRound (c : Nat) : Nat :=
  if c % 2 = 1 then (c >>> 1) ^^^ 0xEDB88320 else c >>> 1

/-- Eight CRC32 rounds, one byte's worth. -/
def crc8 : Nat → Nat → Nat
  | c, 0 => c
  | c, n + 1 => crc8 (crcRound c) n

/-- crc32.ChecksumIEEE over a byte list, the default hash of
consistenthash.NewHash: bitwise (table-free) form of the reflected
CRC-32/IEEE, values kept below 2^32 throughout. -/
def crc32 (bs : List Nat) : Nat :=
  (bs.foldl (fun c b => crc8 (c ^^^ b) 8) 0xFFFFFFFF) ^^^ 0xFFFFFFFF

/-- Bytes Go never escapes in a URL: alphanumerics and - _ . ~ . -/
def isUnreserved (b : Nat) : Bool :=
  (48 ≤ b && b ≤ 57) || (65 ≤ b && b ≤ 90) || (97 ≤ b && b ≤ 122) ||
  (b == 45) || (b == 95) || (b == 46) || (b == 126)

/-- Upper-case hexadecimal digit, as the Go escaper emits. -/
def hexDigit (n : Nat) : Char :=
  if n < 10 then Char.ofNat (48 + n) else Char.ofNat (55 + n)

/-- Escape one byte the way url.QueryEscape does: unreserved bytes pass
through, a space becomes a plus, everything else becomes %XX. -/
def escByte (b : Nat) : List Char :=
  if isUnreserved b then [Char.ofNat b]
  else if b = 32 then [Char.ofNat 43]
  else [Char.ofNat 37, hexDigit (b / 16), hexDigit (b % 16)]

/-- url.QueryEscape: escape every byte of the UTF-8 form of s. -/
def queryEscape (s : String) : String :=
  String.mk ((strBytes s).foldr (fun b acc => escByte b ++ acc) [])

/-- fmt.Sprint applied to string operands: Go inserts a space only
between two operands when neither is a string, so over strings it is
plain concatenation — the format-looking first operand is NOT
interpreted. -/
def sprintStrings (xs : List String) : String := String.join xs

end GoStd

namespace CHash

/-- Hash type of the consistenthash package: bytes to uint32, so the
result of any hash used here is below 2^32. -/
def HashFn : Type := List Nat → Nat

/-- consistenthash.Map: hash function, virtual-node multiplier, sorted
ring of virtual-node hashes, and the virtual-to-real node map. -/
structure Map where
  hash : HashFn
  replicas : Nat
  keys : List Nat
  hashMap : List (Nat × String)

/-- consistenthash.NewHash: nil hash means crc32.ChecksumIEEE. -/
def NewHash (replicas : Nat) (fn : Option HashFn) : Map :=
  { hash := fn.getD GoStd.crc32, replicas := replicas, keys := [], hashMap := [] }

/-- Inner loop of Map.Add for one real node: for each i below replicas,
hash strconv.Itoa(i) + key, append the hash to the ring and map it to
the node. -/
def addOne (m : Map) (key : String) : Map :=
  (List.range m.replicas).foldl
    (fun m2 i =>
      let h := m2.hash (strBytes (Nat.repr i ++ key))
      { m2 with keys := m2.keys ++ [h], hashMap := assocUpd m2.hashMap h key })
    m

/-- consistenthash.Map.Add: insert every node's virtual nodes, then
sort the ring ascending. -/
def Add (m : Map) (nodes : List String) : Map :=
  let m2 := nodes.foldl addOne m
  { m2 with keys := sortNat m2.keys }

/-- consistenthash.Map.Get: empty ring yields the empty node id;
otherwise binary-search the first ring entry at or above the key's
hash, wrapping to index 0 past the end. sort.Search on the monotone
predicate keys[i] >= h over the sorted ring returns the first index
satisfying it, which is findIdx; a miss returns the length, and the
index is then reduced modulo the ring size. -/
def Get (m : Map) (key : String) : String :=
  if m.keys.length = 0 then ""
  else
    let h := m.hash (strBytes key)
    let idx := m.keys.findIdx (fun x => h ≤ x)
    (assocFind m.hashMap (m.keys.getD (idx % m.keys.length) 0)).getD ""

/-- The hash the ring-lookup scenario of the specification injects:
H(s) = atoi(s) cast to uint32. Digits are folded in decimal; the Go
test helper ignores the Atoi error. -/
def atoiHash : HashFn :=
  fun bs => (bs.foldl (fun acc b => acc * 10 + (b - 48)) 0) % 4294967296

end CHash

namespace Pool

/-- Default base path of http.go. -/
def defaultBasePath : String := "/Distribute_cache"

/-- Default virtual-node replication factor of http.go. -/
def defaultReplicas : Nat := 50

/-- The httpGetter client: it only carries the base URL of a peer. -/
structure httpGetter where
  baseURL : String
deriving DecidableEq

/-- The URL httpGetter.Get requests for (group, key): the source builds
it with fmt.Sprint — not Sprintf — over the operands "%v%v%v", the base
URL, the escaped group and the escaped key, so the result is their
plain concatenation with the format-looking string kept literally. The
HTTP round trip itself is I/O and not part of the embedding; the claim
about Get concerns this URL. -/
def urlOf (baseURL group key : String) : String :=
  GoStd.sprintStrings
    ["%v%v%v", baseURL, GoStd.queryEscape group, GoStd.queryEscape key]

/-- The URL shape the specification prescribes for the transport: the
base URL, a separator, the escaped namespace, a separator, the escaped
key, nothing else. Stated from the specification for comparison with
`urlOf`. -/
def specUrl (baseURL group key : String) : String :=
  baseURL ++ "/" ++ GoStd.queryEscape group ++ "/" ++ GoStd.queryEscape key

/-- HttpPool: server address, base path, ring and getter map. The two
pointer-valued fields are none until Set runs (their Go zero value is
nil), matching NewHttpPool. -/
structure HttpPool where
  self : String
  basePath : String
  peers : Option CHash.Map
  httpGetters : Option (List (String × httpGetter))

/-- NewHttpPool: only self and the default base path are set. -/
def NewHttpPool (self : String) : HttpPool :=
  { self := self, basePath := defaultBasePath, peers := none, httpGetters := none }

/-- HttpPool.Set: rebuild the ring with the default replica count and
the default (crc32) hash, add every peer, and install a FRESH EMPTY
getter map — the source never adds any entry to it. -/
def Set (p : HttpPool) (peerList : List String) : HttpPool :=
  { p with
    peers := some (CHash.Add (CHash.NewHash defaultReplicas none) peerList),
    httpGetters := some [] }

/-- HttpPool.PickPeer: consult the ring; when it names a node that is
neither empty nor self, return the getter map's entry for it (a map
miss yields nil, modelled none) together with true; otherwise nil and
false. Calling PickPeer before Set would dereference a nil ring, hence
the outer Option (none = crash). -/
def PickPeer (p : HttpPool) (key : String) : Option (Option httpGetter × Bool) :=
  match p.peers with
  | none => none
  | some m =>
      let peer := CHash.Get m key
      if peer ≠ "" ∧ peer ≠ p.self then
        some (assocFind (p.httpGetters.getD []) peer, true)
      else
        some (none, false)

/-- Ring owner a pool built by Set assigns to a key, for stating the
PickPeer claim. -/
def ownerOf (peerList : List String) (key : String) : String :=
  CHash.Get (CHash.Add (CHash.NewHash defaultReplicas none) peerList) key

end Pool

namespace DCache

/-- Modelled from the spec: ByteView lives in byteview.go, which is not
among the sources; section 3 of the specification describes it as an
immutable view over an owned byte buffer whose Len is the byte count.
Bytes are Nats below 256. -/
structure ByteView where
  b : List Nat
deriving DecidableEq

instance : GoValue ByteView := ⟨fun v => v.b.length⟩

/-- Modelled from the spec: cloneBytes (also from the missing
byteview.go) returns a defensive copy of a byte slice; on immutable
Lean lists a copy is the list itself. -/
def cloneBytes (bs : List Nat) : List Nat := bs

/-- Result type of a Go (value []byte, err error) return. -/
def GoBytes : Type := Except GoErr (List Nat)

/-- The Getter interface / GetterFunc of group.go: the backing store. -/
def GetterFn : Type := String → GoBytes

/-- The PeerGetter interface of peers.go: fetch (group, key) from one
peer. -/
def PeerFn : Type := String → String → GoBytes

/-- The PeerPicker interface of peers.go. The picked peer is a Go
interface value that may be a nil pointer even when the boolean is
true (claim about HttpPool.PickPeer), hence Option PeerFn. -/
def PickerFn : Type := String → Option PeerFn × Bool

/-- The cache shell of group.go's companion file: cacheBytes plus a
lazily created lru.Cache (nil until the first add). The mutex only
serializes access and has no sequential effect. -/
structure cacheShell where
  lruC : Option (Lru.Cache ByteView)
  cacheBytes : Int
deriving DecidableEq

/-- cache.add: create the lru store on first use, then Add. -/
def cacheShell.add (c : cacheShell) (k : String) (v : ByteView) : cacheShell :=
  { c with lruC := some (Lru.Add (c.lruC.getD (Lru.NewCache c.cacheBytes)) k v) }

/-- cache.get: not found while the lru store does not exist; otherwise
delegate (the hit moves the entry, so the shell state is returned). -/
def cacheShell.get (c : cacheShell) (k : String) : Option ByteView × cacheShell :=
  match c.lruC with
  | none => (none, c)
  | some inner =>
      let r := Lru.Get inner k
      (r.1, { c with lruC := some r.2 })

/-- Group of group.go: name, backing store, cache shell, optional peer
picker. The singleflight loader field carries no sequential state; the
sequential behaviour of loader.Do is to run its function once (the
concurrent behaviour is modelled in SFM). -/
structure GroupM where
  name : String
  getter : GetterFn
  mainCache : cacheShell
  peers : Option PickerFn

/-- Group.populateCache: add to the main cache. -/
def populateCache (g : GroupM) (k : String) (v : ByteView) : GroupM :=
  { g with mainCache := g.mainCache.add k v }

/-- Group.getLocally, translated line by line: on a backing-store
error the source returns the zero ByteView together with a NIL error
(group.go line 119) and does not populate the cache; on success it
clones the bytes, populates the cache and returns the view. -/
def getLocally (g : GroupM) (key : String) : (Except GoErr ByteView) × GroupM :=
  match g.getter key with
  | .error _ => (.ok ⟨[]⟩, g)
  | .ok bytes =>
      let value : ByteView := ⟨cloneBytes bytes⟩
      (.ok value, populateCache g key value)

/-- Group.getFromPeer: call the peer getter and wrap the bytes; a nil
PeerGetter would be a nil-pointer method call, modelled as the outer
none (crash). -/
def getFromPeer (g : GroupM) (peer : Option PeerFn) (key : String) :
    Option (Except GoErr ByteView) :=
  match peer with
  | none => none
  | some pf =>
      match pf g.name key with
      | .ok bytes => some (.ok ⟨bytes⟩)
      | .error e => some (.error e)

/-- The closure Group.load hands to loader.Do: try a picked remote
peer first and return its value on success WITHOUT caching; on peer
failure, or when no peer is picked, or when no picker is registered,
fall back to getLocally. -/
def loadFn (g : GroupM) (key : String) : Option ((Except GoErr ByteView) × GroupM) :=
  match g.peers with
  | some pick =>
      match pick key with
      | (peerOpt, true) =>
          match getFromPeer g peerOpt key with
          | none => none
          | some (.ok v) => some (.ok v, g)
          | some (.error _) => some (getLocally g key)
      | (_, false) => some (getLocally g key)
  | none => some (getLocally g key)

/-- Group.load: run the loader (sequentially, Do executes the closure
once) and pass a successful view through; on error the Go code returns
the zero view with the error, which the Except already captures. -/
def load (g : GroupM) (key : String) : Option ((Except GoErr ByteView) × GroupM) :=
  match loadFn g key with
  | none => none
  | some (.ok v, g2) => some (.ok v, g2)
  | some (.error e, g2) => some (.error e, g2)

/-- Group.Get: reject the empty key with the invalid-key error before
touching anything; then consult the main cache; on a miss, load. -/
def GroupM.Get (g : GroupM) (key : String) : Option ((Except GoErr ByteView) × GroupM) :=
  if key = "" then some (.error .invalidKey, g)
  else
    match g.mainCache.get key with
    | (some v, mc2) => some (.ok v, { g with mainCache := mc2 })
    | (none, mc2) => load { g with mainCache := mc2 } key

/-- NewGroup: a nil Getter is rejected at once (the source panics, the
failure is surfaced to the caller before anything is created or
registered, modelled as none); otherwise the group is built with the
given capacity, an empty lazy cache and no peers, and registered under
its name, replacing any previous entry (Go map assignment). -/
def NewGroup (name : String) (cacheBytes : Int) (getter : Option GetterFn)
    (reg : List (String × GroupM)) : Option (GroupM × List (String × GroupM)) :=
  match getter with
  | none => none
  | some f =>
      let g : GroupM :=
        { name := name, getter := f,
          mainCache := { lruC := none, cacheBytes := cacheBytes }, peers := none }
      some (g, assocUpd reg name g)

/-- GetGroup: registry lookup, nil (none) when absent. -/
def GetGroup (reg : List (String × GroupM)) (name : String) : Option GroupM :=
  assocFind reg name

end DCache

namespace SFM

/-!
Interleaving model of singleflight.Do for one key.

K threads all run Do(key, fn) for the same key; calls for other keys
never touch this key's map entry, so they are omitted. The states a
thread can be in follow the straight-line Go code:

* `start`    — Do entered, about to take g.mu and inspect g.m[key].
* `waiting`  — found an in-flight call object, released g.mu, blocked
               in c.wg.Wait (lines 35-40).
* `running`  — created call object j, published it in g.m[key],
               released g.mu, about to run fn (lines 42-48).
* `deleting` — fn finished, result stored, wg.Done signalled (lines
               48-49), about to relock and delete g.m[key].
* `doneE`    — executor returned value v (read from c.val, lines
               52-57).
* `doneW`    — waiter woke from wg.Wait and returned value v (line 39).

Each mutex-protected region is one atomic transition (no thread can
observe the inside of a held lock). Running fn, storing c.val and
signalling wg.Done collapse into one transition as well: between the
store and the signal no other thread may read c.val, because waiters
read it only after Wait returns. Call objects are numbered in creation
order; fn's execution for object j returns the value oracle j, an
arbitrary parameter, so distinct executions may return distinct
values. `vals` holds each object's c.val (none = not yet written) and
`done` its completion flag (the WaitGroup having reached zero).
-/

/-- Program counter of one thread inside Do. -/
inductive PC where
  | start : PC
  | waiting : Nat → PC
  | running : Nat → PC
  | deleting : Nat → PC
  | doneE : Nat → Nat → PC
  | doneW : Nat → Nat → PC
deriving DecidableEq

/-- Global state: thread list, the map entry for the key, and the
per-object value and completion stores. -/
structure St where
  threads : List PC
  entry : Option Nat
  vals : List (Option Nat)
  done : List Bool
deriving DecidableEq

/-- Read c.val of object j (0 if unwritten; the invariant shows a
finished object always has its value written). -/
def readVal (s : St) (j : Nat) : Nat := (s.vals.getD j none).getD 0

/-- Initial state: K threads have called Do and none has executed an
instruction; the map has no entry for the key. All K in-flight windows
therefore overlap from the start. -/
def init (K : Nat) : St :=
  { threads := List.replicate K PC.start, entry := none, vals := [], done := [] }

/-- One interleaving step of some thread. -/
inductive Step (oracle : Nat → Nat) : St → St → Prop where
  | join (s : St) (i j : Nat) (hi : i < s.threads.length)
      (hpc : s.threads[i] = PC.start) (he : s.entry = some j) :
      Step oracle s { s with threads := s.threads.set i (PC.waiting j) }
  | create (s : St) (i : Nat) (hi : i < s.threads.length)
      (hpc : s.threads[i] = PC.start) (he : s.entry = none) :
      Step oracle s
        { threads := s.threads.set i (PC.running s.vals.length),
          entry := some s.vals.length,
          vals := s.vals ++ [none],
          done := s.done ++ [false] }
  | exec (s : St) (i j : Nat) (hi : i < s.threads.length)
      (hpc : s.threads[i] = PC.running j) :
      Step oracle s
        { s with
          threads := s.threads.set i (PC.deleting j),
          vals := s.vals.set j (some (oracle j)),
          done := s.done.set j true }
  | del (s : St) (i j : Nat) (hi : i < s.threads.length)
      (hpc : s.threads[i] = PC.deleting j) :
      Step oracle s
        { s with
          threads := s.threads.set i (PC.doneE j (readVal s j)),
          entry := none }
  | wake (s : St) (i j : Nat) (hi : i < s.threads.length)
      (hpc : s.threads[i] = PC.waiting j) (hd : s.done.getD j false = true) :
      Step oracle s { s with threads := s.threads.set i (PC.doneW j (readVal s j)) }

/-- States reachable from K fresh concurrent callers. -/
inductive Reach (oracle : Nat → Nat) (K : Nat) : St → Prop where
  | refl : Reach oracle K (init K)
  | tail (s s2 : St) : Reach oracle K s → Step oracle s s2 → Reach oracle K s2

/-- Call object a program counter refers to, if any. -/
def refOf : PC → Option Nat
  | .start => none
  | .waiting j => some j
  | .running j => some j
  | .deleting j => some j
  | .doneE j _ => some j
  | .doneW j _ => some j

/-- Whether a thread owns (created and will delete) object j. -/
def isOwner (pc : PC) (j : Nat) : Bool :=
  match pc with
  | .running j2 => j2 == j
  | .deleting j2 => j2 == j
  | .doneE j2 _ => j2 == j
  | _ => false

/-- Number of threads owning object j. -/
def owners (s : St) (j : Nat) : Nat :=
  s.threads.countP (fun pc => isOwner pc j)

/-- Value a finished thread returned from Do, none when still inside. -/
def resultOf : PC → Option Nat
  | .doneE _ v => some v
  | .doneW _ v => some v
  | _ => none

/-- All K callers have returned. -/
def allFinished (s : St) : Bool :=
  s.threads.all (fun pc => (resultOf pc).isSome)

/-- Number of fn executions so far: completion flags are set exactly
once, by the executing thread of each object. -/
def execCount (s : St) : Nat := s.done.countP (fun b => b)

/-- Per-thread part of the inductive invariant. -/
def ThreadCond (oracle : Nat → Nat) (s : St) (pc : PC) : Prop :=
  (∀ j, refOf pc = some j → j < s.vals.length)
  ∧ (∀ j, pc = PC.running j → s.done.getD j false = false)
  ∧ (∀ j, pc = PC.deleting j → s.done.getD j false = true)
  ∧ (∀ j v, pc = PC.doneE j v ∨ pc = PC.doneW j v → v = oracle j)

/-- Inductive invariant of the model. -/
def Inv (oracle : Nat → Nat) (s : St) : Prop :=
  s.done.length = s.vals.length
  ∧ (∀ j, s.entry = some j → j < s.vals.length)
  ∧ (∀ j v, s.vals.getD j none = some v → v = oracle j)
  ∧ (∀ j, s.done.getD j false = true → s.vals.getD j none = some (oracle j))
  ∧ (∀ j, owners s j ≤ 1)
  ∧ (∀ i, (hi : i < s.threads.length) → ThreadCond oracle s s.threads[i])

end SFM

/-! Concrete instances used by individual claims. -/

/-- Capacity of the eviction-order scenario: the total size of the
first two entries. -/
def c3cap : Int := ((goLen "k1" + goLen "v1" + goLen "k2" + goLen "v2" : Nat) : Int)

/-- The store after Add k1=v1; Add k2=v2; Get(k1); Add k3=v3 at that
capacity. -/
def c3final : Lru.Cache String :=
  Lru.Add
    (Lru.Get (Lru.Add (Lru.Add (Lru.NewCache c3cap) "k1" "v1") "k2" "v2") "k1").2
    "k3" "v3"

/-- The ring of the lookup scenario: replicas 3, atoi hash, nodes
6, 4, 2. -/
def c7map : CHash.Map :=
  CHash.Add (CHash.NewHash 3 (some CHash.atoiHash)) ["6", "4", "2"]

/-- A group whose backing store always fails, for evaluating the
error-swallowing path of getLocally. -/
def c1group : DCache.GroupM :=
  { name := "scores",
    getter := fun _ => .error (.msg "backing store failed"),
    mainCache := { lruC := none, cacheBytes := 1024 },
    peers := none }

/-- A peer getter that succeeds with a fixed payload. -/
def c8peer : DCache.PeerFn := fun _ _ => .ok [7, 8]

/-- A picker that always yields that peer. -/
def c8pick : DCache.PickerFn := fun _ => (some c8peer, true)

/-- A group wired to that picker; its backing store would fail, so any
value can only have come from the peer. -/
def c8group : DCache.GroupM :=
  { name := "g",
    getter := fun _ => .error (.msg "backing store unavailable"),
    mainCache := { lruC := none, cacheBytes := 100 },
    peers := some c8pick }

/-! Helper lemmas. -/

/-- Looking a key up right after assigning it yields the assigned
value. -/
theorem assocFind_upd {κ α : Type} [DecidableEq κ] (l : List (κ × α)) (k : κ) (a : α) :
    assocFind (assocUpd l k a) k = some a := by
  induction l with
  | nil => simp [assocUpd, assocFind]
  | cons hd tl ih =>
      by_cases h : hd.1 = k
      · simp [assocUpd, assocFind, h]
      · simpa [assocUpd, assocFind, h] using ih

/-! Claim theorems. -/

/-- C3, counterexample: at capacity len(k1)+len(v1)+len(k2)+len(v2),
after Add k1=v1; Add k2=v2; Get(k1); Add k3=v3, it is NOT the case
that k2 is evicted while k1 and k3 both remain — k1 is gone. -/
theorem C3_counterexample :
    ¬ (Lru.containsKey c3final "k2" = false
       ∧ Lru.containsKey c3final "k1" = true
       ∧ Lru.containsKey c3final "k3" = true) := by
  decide

/-- C3, amended: with the eager capacity test used_bytes >= max_bytes,
Add k2=v2 already brings used_bytes up to max_bytes and evicts k1, so
Get(k1) misses; the final Add evicts k2, and only k3 remains. -/
theorem C3_amended :
    Lru.containsKey c3final "k3" = true
    ∧ Lru.containsKey c3final "k2" = false
    ∧ Lru.containsKey c3final "k1" = false
    ∧ Lru.Len c3final = 1 := by
  decide

/-- C7: with replicas 3 and H(s) = atoi(s), adding nodes 6, 4, 2
produces the sorted virtual ring [2,4,6,12,14,16,22,24,26], and the
lookups 2, 11, 23, 27 resolve to nodes 2, 2, 4 and (wrapping) 2. -/
theorem C7_ring_lookup :
    c7map.keys = [2, 4, 6, 12, 14, 16, 22, 24, 26]
    ∧ CHash.Get c7map "2" = "2"
    ∧ CHash.Get c7map "11" = "2"
    ∧ CHash.Get c7map "23" = "4"
    ∧ CHash.Get c7map "27" = "2" := by
  decide

/-- C5: the URL httpGetter.Get actually requests is the literal
characters %v%v%v followed by the base URL, the escaped group and the
escaped key with no separators — not the specified
base/namespace/key shape. -/
theorem C5_evaluation :
    Pool.urlOf "http://peer" "scores" "Tom" = "%v%v%vhttp://peerscoresTom"
    ∧ Pool.specUrl "http://peer" "scores" "Tom" = "http://peer/scores/Tom"
    ∧ Pool.urlOf "http://peer" "scores" "Tom"
        ≠ Pool.specUrl "http://peer" "scores" "Tom" := by
  decide

/-- C9: Get with the empty key returns the invalid-key error and
leaves the whole group state untouched, for EVERY group — so no cache
read or write, no peer interaction and no backing-store call can have
happened, whatever those components are. -/
theorem C9_empty_key (g : DCache.GroupM) :
    g.Get "" = some (.error .invalidKey, g) := rfl

/-- C1, code evaluation: when the backing store fails, Group.Get
returns the ZERO view with a nil error — getLocally swallows the
error (group.go line 119) — and the cache is left unchanged (the
group comes back identical, nothing populated). -/
theorem C1_evaluation :
    c1group.Get "Tom" = some (.ok ⟨[]⟩, c1group)
    ∧ DCache.getLocally c1group "Tom" = (.ok ⟨[]⟩, c1group) := ⟨rfl, rfl⟩

/-- C8: whenever the registered picker yields a (non-nil) remote peer
for the key and that peer's getter succeeds, load returns the fetched
bytes as the view and hands back the group EXACTLY as it was — in
particular untouched main cache, populateCache never having run. -/
theorem C8_peer_success (g : DCache.GroupM) (pick : DCache.PickerFn)
    (pf : DCache.PeerFn) (key : String) (bytes : List Nat)
    (h1 : g.peers = some pick)
    (h2 : pick key = (some pf, true))
    (h3 : pf g.name key = .ok bytes) :
    DCache.load g key = some (.ok ⟨bytes⟩, g) := by
  simp [DCache.load, DCache.loadFn, DCache.getFromPeer, h1, h2, h3]

/-- C8 witness: a concrete group whose picker returns a working peer;
its load yields the peer bytes and the identical group. -/
theorem C8_witness :
    (c8group.peers = some c8pick
     ∧ c8pick "k" = (some c8peer, true)
     ∧ c8peer c8group.name "k" = .ok [7, 8])
    ∧ DCache.load c8group "k" = some (.ok ⟨[7, 8]⟩, c8group) :=
  ⟨⟨rfl, rfl, rfl⟩, C8_peer_success c8group c8pick c8peer "k" [7, 8] rfl rfl rfl⟩

/-- C10: a nil getter makes NewGroup fail at once with nothing
created or registered; a non-nil getter yields a group carrying the
name, the getter, an empty lazy cache of the given capacity and no
peers, registered under its name; and registering the same name again
replaces the entry, so the registry afterwards resolves the name to
the second group. -/
theorem C10_new_group :
    (∀ (n : String) (cb : Int) (reg : List (String × DCache.GroupM)),
      DCache.NewGroup n cb none reg = none)
    ∧ (∀ (n : String) (cb : Int) (f : DCache.GetterFn)
        (reg : List (String × DCache.GroupM)),
      ∃ g reg2, DCache.NewGroup n cb (some f) reg = some (g, reg2)
        ∧ g.name = n ∧ g.getter = f
        ∧ g.mainCache = { lruC := none, cacheBytes := cb } ∧ g.peers = none
        ∧ DCache.GetGroup reg2 n = some g)
    ∧ (∀ (n : String) (cb cb2 : Int) (f f2 : DCache.GetterFn)
        (reg : List (String × DCache.GroupM)),
      ∃ g1 reg1 g2 reg2, DCache.NewGroup n cb (some f) reg = some (g1, reg1)
        ∧ DCache.NewGroup n cb2 (some f2) reg1 = some (g2, reg2)
        ∧ g2.getter = f2 ∧ g2.mainCache.cacheBytes = cb2
        ∧ DCache.GetGroup reg2 n = some g2) := by
  refine ⟨fun n cb reg => rfl, fun n cb f reg => ⟨_, _, rfl, rfl, rfl, rfl, rfl, ?_⟩,
          fun n cb cb2 f f2 reg => ⟨_, _, _, _, rfl, rfl, rfl, rfl, ?_⟩⟩
  · exact assocFind_upd reg n _
  · exact assocFind_upd (assocUpd reg n _) n _

/-- C2: once Set has installed the peer list, every key whose ring
owner is a node other than this pool's own address makes PickPeer
report found (true) with a NIL PeerGetter: Set created the getter map
empty and nothing in the sources ever populates it, so the map read
yields the nil zero value. -/
theorem C2_nil_getter (self : String) (peerList : List String) (key : String)
    (h1 : Pool.ownerOf peerList key ≠ "")
    (h2 : Pool.ownerOf peerList key ≠ self) :
    Pool.PickPeer (Pool.Set (Pool.NewHttpPool self) peerList) key
      = some (none, true) := by
  simp only [Pool.PickPeer, Pool.Set, Pool.NewHttpPool]
  rw [if_pos ⟨h1, h2⟩]
  rfl

set_option maxRecDepth 1000000 in
/-- C2 witness: with self A and peers A, B, the key 0 hashes to owner
B on the 50-replica crc32 ring, and PickPeer indeed returns a nil
getter with ok true. -/
theorem C2_witness :
    (Pool.ownerOf ["A", "B"] "0" ≠ "" ∧ Pool.ownerOf ["A", "B"] "0" ≠ "A")
    ∧ Pool.PickPeer (Pool.Set (Pool.NewHttpPool "A") ["A", "B"]) "0"
        = some (none, true) :=
  ⟨⟨by decide, by decide⟩, C2_nil_getter "A" ["A", "B"] "0" (by decide) (by decide)⟩

/-- Detaching a key's entry splits the size sum into that entry's size
and the rest. -/
theorem lookupMove_sizeSum {V : Type} [GoValue V] {k : String}
    {l : List (String × V)} {v : V} {rest : List (String × V)}
    (h : Lru.lookupMove k l = some (v, rest)) :
    Lru.sizeSum l = (goLen k : Int) + (GoValue.len v : Int) + Lru.sizeSum rest := by
  induction l generalizing rest with
  | nil => simp [Lru.lookupMove] at h
  | cons hd tl ih =>
      obtain ⟨k2, v2⟩ := hd
      by_cases hk : k2 = k
      · simp [Lru.lookupMove, hk] at h
        obtain ⟨hv, hrest⟩ := h
        subst hv; subst hrest
        simp [Lru.sizeSum, Lru.esize, hk]
      · cases hlk : Lru.lookupMove k tl with
        | none => simp [Lru.lookupMove, hk, hlk] at h
        | some r =>
            obtain ⟨rv, rrest⟩ := r
            simp [Lru.lookupMove, hk, hlk] at h
            obtain ⟨hv, hrest⟩ := h
            subst hv
            rw [← hrest]
            have hs := ih hlk
            simp [Lru.sizeSum, hs]
            ring

/-- The size sum of a nonempty list is the size sum of its front part
plus the size of its last entry. -/
theorem sizeSum_getLast {V : Type} [GoValue V] {l : List (String × V)}
    {e : String × V} (h : l.getLast? = some e) :
    Lru.sizeSum l = Lru.sizeSum l.dropLast + Lru.esize e := by
  induction l with
  | nil => simp at h
  | cons hd tl ih =>
      cases tl with
      | nil =>
          simp [List.getLast?] at h
          subst h
          simp [Lru.sizeSum]
      | cons hd2 tl2 =>
          rw [List.getLast?_cons_cons] at h
          have hs := ih h
          calc Lru.sizeSum (hd :: hd2 :: tl2)
              = Lru.esize hd + Lru.sizeSum (hd2 :: tl2) := rfl
            _ = Lru.esize hd + (Lru.sizeSum (hd2 :: tl2).dropLast + Lru.esize e) := by
                  rw [hs]
            _ = Lru.esize hd + Lru.sizeSum (hd2 :: tl2).dropLast + Lru.esize e := by
                  ring
            _ = Lru.sizeSum ((hd :: hd2 :: tl2).dropLast) + Lru.esize e := rfl

/-- Remove keeps the accounting invariant. -/
theorem Remove_accounted {V : Type} [GoValue V] {c : Lru.Cache V}
    (h : Lru.accounted c) : Lru.accounted (Lru.Remove c) := by
  unfold Lru.Remove
  cases hl : c.entries.getLast? with
  | none => exact h
  | some e =>
      simp [Lru.accounted] at h ⊢
      rw [h, sizeSum_getLast hl]
      ring

/-- Remove does not change the capacity. -/
theorem Remove_maxBytes {V : Type} [GoValue V] (c : Lru.Cache V) :
    (Lru.Remove c).maxBytes = c.maxBytes := by
  unfold Lru.Remove
  cases c.entries.getLast? <;> rfl

/-- Remove shortens a nonempty entry list. -/
theorem Remove_length {V : Type} [GoValue V] {c : Lru.Cache V}
    (h : c.entries.length ≠ 0) :
    (Lru.Remove c).entries.length = c.entries.length - 1 := by
  unfold Lru.Remove
  cases hl : c.entries.getLast? with
  | none =>
      rw [List.getLast?_eq_none_iff] at hl
      simp [hl] at h
  | some e => simp [List.length_dropLast]

/-- The eviction loop keeps the accounting invariant. -/
theorem evictFuel_accounted {V : Type} [GoValue V] (n : Nat) (c : Lru.Cache V)
    (h : Lru.accounted c) : Lru.accounted (Lru.evictFuel n c) := by
  induction n generalizing c with
  | zero => exact h
  | succ m ih =>
      unfold Lru.evictFuel
      split
      · exact ih _ (Remove_accounted h)
      · exact h

/-- The eviction loop does not change the capacity. -/
theorem evictFuel_maxBytes {V : Type} [GoValue V] (n : Nat) (c : Lru.Cache V) :
    (Lru.evictFuel n c).maxBytes = c.maxBytes := by
  induction n generalizing c with
  | zero => rfl
  | succ m ih =>
      unfold Lru.evictFuel
      split
      · rw [ih, Remove_maxBytes]
      · rfl

/-- After the eviction loop, an accounted cache with positive capacity
is strictly under capacity (the loop stops only below the bound, or on
an emptied cache, which by accounting holds zero bytes). -/
theorem evictFuel_post {V : Type} [GoValue V] (n : Nat) (c : Lru.Cache V)
    (hacc : Lru.accounted c) (hpos : 0 < c.maxBytes)
    (hfuel : c.entries.length ≤ n) :
    (Lru.evictFuel n c).usedBytes < c.maxBytes := by
  induction n generalizing c with
  | zero =>
      have hnil : c.entries = [] := List.eq_nil_of_length_eq_zero (Nat.le_zero.mp hfuel)
      have : c.usedBytes = 0 := by rw [hacc, hnil]; rfl
      simpa [Lru.evictFuel, this] using hpos
  | succ m ih =>
      unfold Lru.evictFuel
      split
      · rename_i hguard
        obtain ⟨h1, h2, h3⟩ := hguard
        have hlen : (Lru.Remove c).entries.length ≤ m := by
          rw [Remove_length h3]
          omega
        have := ih (Lru.Remove c) (Remove_accounted hacc)
          (by rw [Remove_maxBytes]; exact hpos) hlen
        rwa [Remove_maxBytes] at this
      · rename_i hguard
        rcases Decidable.not_and_iff_or_not.mp hguard with h | h
        · exact absurd hpos h
        · rcases Decidable.not_and_iff_or_not.mp h with h2 | h3
          · omega
          · have hnil : c.entries = [] :=
              List.eq_nil_of_length_eq_zero (by omega)
            have : c.usedBytes = 0 := by rw [hacc, hnil]; rfl
            omega

/-- Get keeps the accounting invariant: a hit only moves the entry. -/
theorem Get_accounted {V : Type} [GoValue V] {c : Lru.Cache V} (k : String)
    (h : Lru.accounted c) : Lru.accounted (Lru.Get c k).2 := by
  unfold Lru.Get
  cases hl : Lru.lookupMove k c.entries with
  | none => exact h
  | some r =>
      obtain ⟨v, rest⟩ := r
      simp [Lru.accounted] at h ⊢
      rw [h, lookupMove_sizeSum hl]
      show _ = Lru.esize (k, v) + Lru.sizeSum rest
      simp [Lru.esize]

/-- Add keeps the accounting invariant. -/
theorem Add_accounted {V : Type} [GoValue V] {c : Lru.Cache V} (k : String) (v : V)
    (h : Lru.accounted c) : Lru.accounted (Lru.Add c k v) := by
  unfold Lru.Add
  cases hl : Lru.lookupMove k c.entries with
  | none =>
      apply evictFuel_accounted
      simp [Lru.accounted] at h ⊢
      rw [h]
      show _ = Lru.esize (k, v) + Lru.sizeSum c.entries
      simp [Lru.esize]
      ring
  | some r =>
      obtain ⟨old, rest⟩ := r
      apply evictFuel_accounted
      simp [Lru.accounted] at h ⊢
      rw [h, lookupMove_sizeSum hl]
      show _ = Lru.esize (k, v) + Lru.sizeSum rest
      simp [Lru.esize]
      ring

/-- Add does not change the capacity. -/
theorem Add_maxBytes {V : Type} [GoValue V] (c : Lru.Cache V) (k : String) (v : V) :
    (Lru.Add c k v).maxBytes = c.maxBytes := by
  unfold Lru.Add
  cases hl : Lru.lookupMove k c.entries with
  | none =>
      dsimp only
      unfold Lru.evict
      exact evictFuel_maxBytes _ _
  | some r =>
      obtain ⟨old, rest⟩ := r
      dsimp only
      unfold Lru.evict
      exact evictFuel_maxBytes _ _

/-- Every reachable cache state is accounted. -/
theorem ReachCache_accounted {V : Type} [GoValue V] {c : Lru.Cache V}
    (h : Lru.ReachCache c) : Lru.accounted c := by
  induction h with
  | new m => rfl
  | add c k v _ ih => exact Add_accounted k v ih
  | get c k _ ih => exact Get_accounted k ih

/-- C6: on any store reachable by Adds and Gets, after a further Add
with positive capacity, either the used bytes are strictly below the
capacity or exactly one entry remains. (The accounting invariant in
fact forces the first disjunct: the eviction loop only stops strictly
below the bound or on an emptied, hence zero-byte, store.) -/
theorem C6_lru_bound {V : Type} [GoValue V] (c : Lru.Cache V)
    (hr : Lru.ReachCache c) (k : String) (v : V)
    (hpos : 0 < (Lru.Add c k v).maxBytes) :
    (Lru.Add c k v).usedBytes < (Lru.Add c k v).maxBytes
    ∨ Lru.Len (Lru.Add c k v) = 1 := by
  left
  have hacc := ReachCache_accounted hr
  rw [Add_maxBytes] at hpos ⊢
  unfold Lru.Add
  cases hl : Lru.lookupMove k c.entries with
  | none =>
      dsimp only
      unfold Lru.evict
      have hacc2 : Lru.accounted
          { c with entries := (k, v) :: c.entries,
                   usedBytes := c.usedBytes + (goLen k : Int) + (GoValue.len v : Int) } := by
        simp [Lru.accounted] at hacc ⊢
        rw [hacc]
        show _ = Lru.esize (k, v) + Lru.sizeSum c.entries
        simp [Lru.esize]
        ring
      exact evictFuel_post _ _ hacc2 hpos (Nat.le_refl _)
  | some r =>
      obtain ⟨old, rest⟩ := r
      dsimp only
      unfold Lru.evict
      have hacc2 : Lru.accounted
          { c with entries := (k, v) :: rest,
                   usedBytes := c.usedBytes + (GoValue.len v : Int) - (GoValue.len old : Int) } := by
        simp [Lru.accounted] at hacc ⊢
        rw [hacc, lookupMove_sizeSum hl]
        show _ = Lru.esize (k, v) + Lru.sizeSum rest
        simp [Lru.esize]
        ring
      exact evictFuel_post _ _ hacc2 hpos (Nat.le_refl _)

/-- C6 witness: a fresh store of capacity 10 is reachable; adding one
3-byte entry keeps it strictly under capacity. -/
theorem C6_witness :
    Lru.ReachCache (Lru.NewCache (V := String) 10)
    ∧ (0 : Int) < (Lru.Add (Lru.NewCache (V := String) 10) "a" "bc").maxBytes
    ∧ ((Lru.Add (Lru.NewCache (V := String) 10) "a" "bc").usedBytes
         < (Lru.Add (Lru.NewCache (V := String) 10) "a" "bc").maxBytes
       ∨ Lru.Len (Lru.Add (Lru.NewCache (V := String) 10) "a" "bc") = 1) :=
  ⟨Lru.ReachCache.new 10, by decide,
   C6_lru_bound (Lru.NewCache 10) (Lru.ReachCache.new 10) "a" "bc" (by decide)⟩

/-! List helpers for the singleflight model. -/

/-- Reading an index just written. -/
theorem getD_set_self {α : Type} (l : List α) (i : Nat) (a d : α) (h : i < l.length) :
    (l.set i a).getD i d = a := by
  rw [List.getD_eq_getElem?_getD, List.getElem?_set]
  simp [h]

/-- Reading an index other than the one written. -/
theorem getD_set_ne {α : Type} (l : List α) {i j : Nat} (a d : α) (h : i ≠ j) :
    (l.set i a).getD j d = l.getD j d := by
  rw [List.getD_eq_getElem?_getD, List.getElem?_set, if_neg h,
    ← List.getD_eq_getElem?_getD]

/-- Reading the appended element. -/
theorem getD_append_len {α : Type} (l : List α) (x d : α) :
    (l ++ [x]).getD l.length d = x := by
  induction l with
  | nil => rfl
  | cons hd tl _ => simp

/-- Overwriting one position trades its old count contribution for the
new one. -/
theorem countP_set {α : Type} (l : List α) (i : Nat) (a : α) (p : α → Bool)
    (h : i < l.length) :
    (l.set i a).countP p + (if p (l[i]) then 1 else 0)
      = l.countP p + (if p a then 1 else 0) := by
  induction l generalizing i with
  | nil => simp at h
  | cons hd tl ih =>
      cases i with
      | zero => simp [List.countP_cons]; omega
      | succ m =>
          have hm : m < tl.length := by simpa using h
          have := ih m hm
          simp [List.countP_cons]
          omega

/-- In a list where at most one element satisfies p, two positions both
satisfying p coincide. -/
theorem countP_le_one_unique {α : Type} {l : List α} {p : α → Bool}
    (h : l.countP p ≤ 1) {i i2 : Nat} (hi : i < l.length) (hi2 : i2 < l.length)
    (h1 : p (l[i]) = true) (h2 : p (l[i2]) = true) : i = i2 := by
  induction l generalizing i i2 with
  | nil => simp at hi
  | cons hd tl ih =>
      cases i with
      | zero =>
          cases i2 with
          | zero => rfl
          | succ m =>
              exfalso
              have hm : m < tl.length := by simpa using hi2
              have hpos : 0 < tl.countP p :=
                List.countP_pos_iff.mpr ⟨tl[m], List.getElem_mem hm, by simpa using h2⟩
              rw [List.countP_cons] at h
              simp at h1
              rw [if_pos h1] at h
              omega
      | succ m =>
          cases i2 with
          | zero =>
              exfalso
              have hm : m < tl.length := by simpa using hi
              have hpos : 0 < tl.countP p :=
                List.countP_pos_iff.mpr ⟨tl[m], List.getElem_mem hm, by simpa using h1⟩
              rw [List.countP_cons] at h
              simp at h2
              rw [if_pos h2] at h
              omega
          | succ m2 =>
              have hm : m < tl.length := by simpa using hi
              have hm2 : m2 < tl.length := by simpa using hi2
              have htl : tl.countP p ≤ 1 := by
                rw [List.countP_cons] at h
                omega
              have := ih htl hm hm2 (by simpa using h1) (by simpa using h2)
              omega

/-- An owner's program counter refers to the owned object. -/
theorem isOwner_refOf {pc : SFM.PC} {j : Nat} (h : SFM.isOwner pc j = true) :
    SFM.refOf pc = some j := by
  cases pc <;> simp [SFM.isOwner, SFM.refOf] at h ⊢ <;> omega

/-- ThreadCond for a thread at start. -/
theorem ThreadCond_start (oracle : Nat → Nat) (s : SFM.St) :
    SFM.ThreadCond oracle s SFM.PC.start := by
  refine ⟨?_, ?_, ?_, ?_⟩
  · intro j hj; simp [SFM.refOf] at hj
  · intro j hj; exact SFM.PC.noConfusion hj
  · intro j hj; exact SFM.PC.noConfusion hj
  · intro j v hj; rcases hj with hj | hj <;> exact SFM.PC.noConfusion hj

/-- ThreadCond for a waiter on a valid object. -/
theorem ThreadCond_waiting (oracle : Nat → Nat) (s : SFM.St) (j : Nat)
    (h : j < s.vals.length) : SFM.ThreadCond oracle s (SFM.PC.waiting j) := by
  refine ⟨?_, ?_, ?_, ?_⟩
  · intro j2 hj; simp [SFM.refOf] at hj; omega
  · intro j2 hj; exact SFM.PC.noConfusion hj
  · intro j2 hj; exact SFM.PC.noConfusion hj
  · intro j2 v hj; rcases hj with hj | hj <;> exact SFM.PC.noConfusion hj

/-- ThreadCond for the runner of a valid, not yet completed object. -/
theorem ThreadCond_running (oracle : Nat → Nat) (s : SFM.St) (j : Nat)
    (h : j < s.vals.length) (hd : s.done.getD j false = false) :
    SFM.ThreadCond oracle s (SFM.PC.running j) := by
  refine ⟨?_, ?_, ?_, ?_⟩
  · intro j2 hj; simp [SFM.refOf] at hj; omega
  · intro j2 hj; injection hj with hj; subst hj; exact hd
  · intro j2 hj; exact SFM.PC.noConfusion hj
  · intro j2 v hj; rcases hj with hj | hj <;> exact SFM.PC.noConfusion hj

/-- ThreadCond for the deleter of a valid, completed object. -/
theorem ThreadCond_deleting (oracle : Nat → Nat) (s : SFM.St) (j : Nat)
    (h : j < s.vals.length) (hd : s.done.getD j false = true) :
    SFM.ThreadCond oracle s (SFM.PC.deleting j) := by
  refine ⟨?_, ?_, ?_, ?_⟩
  · intro j2 hj; simp [SFM.refOf] at hj; omega
  · intro j2 hj; exact SFM.PC.noConfusion hj
  · intro j2 hj; injection hj with hj; subst hj; exact hd
  · intro j2 v hj; rcases hj with hj | hj <;> exact SFM.PC.noConfusion hj

/-- ThreadCond for a finished executor holding the oracle value. -/
theorem ThreadCond_doneE (oracle : Nat → Nat) (s : SFM.St) (j v : Nat)
    (h : j < s.vals.length) (hv : v = oracle j) :
    SFM.ThreadCond oracle s (SFM.PC.doneE j v) := by
  refine ⟨?_, ?_, ?_, ?_⟩
  · intro j2 hj; simp [SFM.refOf] at hj; omega
  · intro j2 hj; exact SFM.PC.noConfusion hj
  · intro j2 hj; exact SFM.PC.noConfusion hj
  · intro j2 v2 hj
    rcases hj with hj | hj
    · injection hj with hj1 hj2; subst hj1; subst hj2; exact hv
    · exact SFM.PC.noConfusion hj

/-- ThreadCond for a finished waiter holding the oracle value. -/
theorem ThreadCond_doneW (oracle : Nat → Nat) (s : SFM.St) (j v : Nat)
    (h : j < s.vals.length) (hv : v = oracle j) :
    SFM.ThreadCond oracle s (SFM.PC.doneW j v) := by
  refine ⟨?_, ?_, ?_, ?_⟩
  · intro j2 hj; simp [SFM.refOf] at hj; omega
  · intro j2 hj; exact SFM.PC.noConfusion hj
  · intro j2 hj; exact SFM.PC.noConfusion hj
  · intro j2 v2 hj
    rcases hj with hj | hj
    · exact SFM.PC.noConfusion hj
    · injection hj with hj1 hj2; subst hj1; subst hj2; exact hv

/-- ThreadCond survives a state change that can only grow the object
store and does not change the completion flag of the referenced
object. -/
theorem ThreadCond_transfer (oracle : Nat → Nat) {s s2 : SFM.St} (pc : SFM.PC)
    (hlen : s.vals.length ≤ s2.vals.length)
    (hdone : ∀ j, SFM.refOf pc = some j → j < s.vals.length →
      s2.done.getD j false = s.done.getD j false)
    (h : SFM.ThreadCond oracle s pc) : SFM.ThreadCond oracle s2 pc := by
  obtain ⟨h1, h2, h3, h4⟩ := h
  refine ⟨fun j hj => lt_of_lt_of_le (h1 j hj) hlen, ?_, ?_, h4⟩
  · intro j hpc
    have hr : SFM.refOf pc = some j := by rw [hpc]; rfl
    rw [hdone j hr (h1 j hr)]
    exact h2 j hpc
  · intro j hpc
    have hr : SFM.refOf pc = some j := by rw [hpc]; rfl
    rw [hdone j hr (h1 j hr)]
    exact h3 j hpc

/-- The initial state satisfies the invariant. -/
theorem Inv_init (oracle : Nat → Nat) (K : Nat) : SFM.Inv oracle (SFM.init K) := by
  refine ⟨rfl, ?_, ?_, ?_, ?_, ?_⟩
  · intro j hj; exact Option.noConfusion hj
  · intro j v hv; exact Option.noConfusion hv
  · intro j hd; exact Bool.noConfusion hd
  · intro j
    have hz : (List.replicate K SFM.PC.start).countP (fun pc => SFM.isOwner pc j) = 0 :=
      List.countP_eq_zero.mpr
        (fun a ha => by rw [List.eq_of_mem_replicate ha]; simp [SFM.isOwner])
    show (List.replicate K SFM.PC.start).countP (fun pc => SFM.isOwner pc j) ≤ 1
    omega
  · intro i hi
    have hrep : (SFM.init K).threads[i] = SFM.PC.start := List.getElem_replicate _ hi
    rw [hrep]
    exact ThreadCond_start oracle _

/-- Overwriting a position with an element scoring the same leaves the
count unchanged. -/
theorem countP_set_eq {α : Type} (l : List α) (i : Nat) (a : α) (p : α → Bool)
    (h : i < l.length) (hsame : p (l[i]) = p a) :
    (l.set i a).countP p = l.countP p := by
  have hcs := countP_set l i a p h
  rw [hsame] at hcs
  omega

/-- Overwriting a position that did not score grows the count by at
most one. -/
theorem countP_set_of_false {α : Type} (l : List α) (i : Nat) (a : α) (p : α → Bool)
    (h : i < l.length) (hold : p (l[i]) = false) :
    (l.set i a).countP p ≤ l.countP p + 1 := by
  have hcs := countP_set l i a p h
  rw [hold] at hcs
  cases hpa : p a <;> rw [hpa] at hcs <;> simp at hcs <;> omega

/-- A runner of one object is not an owner of a different one. -/
theorem isOwner_running_ne {n j2 : Nat} (h : n ≠ j2) :
    SFM.isOwner (SFM.PC.running n) j2 = false := by
  simp [SFM.isOwner]
  exact h

/-- Every interleaving step preserves the invariant. -/
theorem Inv_step (oracle : Nat → Nat) {s s2 : SFM.St} (hst : SFM.Step oracle s s2)
    (hinv : SFM.Inv oracle s) : SFM.Inv oracle s2 := by
  obtain ⟨hlen, hentry, hvals, hdone, howners, hthreads⟩ := hinv
  cases hst with
  | join i j hi hpc he =>
      refine ⟨hlen, hentry, hvals, hdone, ?_, ?_⟩
      · intro j2
        show (s.threads.set i (SFM.PC.waiting j)).countP
          (fun pc => SFM.isOwner pc j2) ≤ 1
        rw [countP_set_eq s.threads i (SFM.PC.waiting j)
          (fun pc => SFM.isOwner pc j2) hi (by rw [hpc]; rfl)]
        exact howners j2
      · intro i2 hi2
        have hi2' : i2 < s.threads.length := by simpa using hi2
        rw [List.getElem_set]
        by_cases hii : i = i2
        · rw [if_pos hii]
          exact ThreadCond_waiting oracle _ j (hentry j he)
        · rw [if_neg hii]
          exact hthreads i2 hi2'
  | create i hi hpc he =>
      refine ⟨?_, ?_, ?_, ?_, ?_, ?_⟩
      · simp [hlen]
      · intro j2 hj2
        have hj2' : some s.vals.length = some j2 := hj2
        injection hj2' with hj2'
        simp
        omega
      · intro j2 v hv
        rcases Nat.lt_trichotomy j2 s.vals.length with hlt | heq | hgt
        · rw [List.getD_append _ _ _ _ hlt] at hv
          exact hvals j2 v hv
        · rw [heq, getD_append_len] at hv
          exact Option.noConfusion hv
        · have hge : (s.vals ++ [(none : Option Nat)]).length ≤ j2 := by
            simp
            omega
          rw [List.getD_eq_default _ _ hge] at hv
          exact Option.noConfusion hv
      · intro j2 hd2
        rcases Nat.lt_trichotomy j2 s.done.length with hlt | heq | hgt
        · rw [List.getD_append _ _ _ _ hlt] at hd2
          have hlt2 : j2 < s.vals.length := by omega
          rw [List.getD_append _ _ _ _ hlt2]
          exact hdone j2 hd2
        · rw [heq, getD_append_len] at hd2
          exact Bool.noConfusion hd2
        · have hge : (s.done ++ [false]).length ≤ j2 := by
            simp
            omega
          rw [List.getD_eq_default _ _ hge] at hd2
          exact Bool.noConfusion hd2
      · intro j2
        show (s.threads.set i (SFM.PC.running s.vals.length)).countP
          (fun pc => SFM.isOwner pc j2) ≤ 1
        by_cases hj2 : s.vals.length = j2
        · have hz : s.threads.countP (fun pc => SFM.isOwner pc j2) = 0 := by
            apply List.countP_eq_zero.mpr
            intro pc hmem hp
            obtain ⟨i3, hi3, hpc3⟩ := List.mem_iff_getElem.mp hmem
            have href : SFM.refOf (s.threads[i3]) = some j2 := by
              rw [hpc3]
              exact isOwner_refOf hp
            have hb := (hthreads i3 hi3).1 j2 href
            omega
          have hle := countP_set_of_false s.threads i
            (SFM.PC.running s.vals.length) (fun pc => SFM.isOwner pc j2) hi
            (by rw [hpc]; rfl)
          omega
        · rw [countP_set_eq s.threads i (SFM.PC.running s.vals.length)
            (fun pc => SFM.isOwner pc j2) hi
            (by rw [hpc]; exact (isOwner_running_ne hj2).symm)]
          exact howners j2
      · intro i2 hi2
        have hi2' : i2 < s.threads.length := by simpa using hi2
        rw [List.getElem_set]
        by_cases hii : i = i2
        · rw [if_pos hii]
          refine ThreadCond_running oracle _ _ ?_ ?_
          · simp
          · show (s.done ++ [false]).getD s.vals.length false = false
            rw [← hlen, getD_append_len]
        · rw [if_neg hii]
          refine ThreadCond_transfer oracle _ ?_ ?_ (hthreads i2 hi2')
          · simp
          · intro j3 href hj3
            show (s.done ++ [false]).getD j3 false = s.done.getD j3 false
            exact List.getD_append _ _ _ _ (by omega)
  | exec i j hi hpc =>
      have tci := hthreads i hi
      have hjref : SFM.refOf (s.threads[i]) = some j := by rw [hpc]; rfl
      have hjlt : j < s.vals.length := tci.1 j hjref
      have hjltd : j < s.done.length := by omega
      refine ⟨?_, ?_, ?_, ?_, ?_, ?_⟩
      · simp [hlen]
      · intro j2 hj2
        have := hentry j2 hj2
        simpa using this
      · intro j2 v hv
        by_cases hjj : j = j2
        · subst hjj
          rw [getD_set_self _ _ _ _ hjlt] at hv
          injection hv with hv
          exact hv.symm
        · rw [getD_set_ne _ _ _ hjj] at hv
          exact hvals j2 v hv
      · intro j2 hd2
        by_cases hjj : j = j2
        · subst hjj
          rw [getD_set_self _ _ _ _ hjlt]
        · rw [getD_set_ne _ _ _ hjj] at hd2
          rw [getD_set_ne _ _ _ hjj]
          exact hdone j2 hd2
      · intro j2
        show (s.threads.set i (SFM.PC.deleting j)).countP
          (fun pc => SFM.isOwner pc j2) ≤ 1
        rw [countP_set_eq s.threads i (SFM.PC.deleting j)
          (fun pc => SFM.isOwner pc j2) hi (by rw [hpc]; rfl)]
        exact howners j2
      · intro i2 hi2
        have hi2' : i2 < s.threads.length := by simpa using hi2
        rw [List.getElem_set]
        by_cases hii : i = i2
        · rw [if_pos hii]
          refine ThreadCond_deleting oracle _ _ ?_ ?_
          · simpa using hjlt
          · show (s.done.set j true).getD j false = true
            rw [getD_set_self _ _ _ _ hjltd]
        · rw [if_neg hii]
          obtain ⟨tc1, tc2, tc3, tc4⟩ := hthreads i2 hi2'
          refine ⟨?_, ?_, ?_, tc4⟩
          · intro j3 hj3
            simpa using tc1 j3 hj3
          · intro j3 hpc3
            by_cases hjj : j = j3
            · exfalso
              subst hjj
              have hp1 : (fun pc => SFM.isOwner pc j) (s.threads[i]) = true := by
                rw [hpc]
                simp [SFM.isOwner]
              have hp2 : (fun pc => SFM.isOwner pc j) (s.threads[i2]) = true := by
                rw [hpc3]
                simp [SFM.isOwner]
              have hone : s.threads.countP (fun pc => SFM.isOwner pc j) ≤ 1 :=
                howners j
              exact hii (countP_le_one_unique hone hi hi2' hp1 hp2)
            · show (s.done.set j true).getD j3 false = false
              rw [getD_set_ne _ _ _ hjj]
              exact tc2 j3 hpc3
          · intro j3 hpc3
            by_cases hjj : j = j3
            · subst hjj
              show (s.done.set j true).getD j false = true
              rw [getD_set_self _ _ _ _ hjltd]
            · show (s.done.set j true).getD j3 false = true
              rw [getD_set_ne _ _ _ hjj]
              exact tc3 j3 hpc3
  | del i j hi hpc =>
      have tci := hthreads i hi
      have hjref : SFM.refOf (s.threads[i]) = some j := by rw [hpc]; rfl
      have hjlt : j < s.vals.length := tci.1 j hjref
      have hdt : s.done.getD j false = true := tci.2.2.1 j hpc
      have hval : s.vals.getD j none = some (oracle j) := hdone j hdt
      have hrv : SFM.readVal s j = oracle j := by
        unfold SFM.readVal
        rw [hval]
        rfl
      refine ⟨hlen, ?_, hvals, hdone, ?_, ?_⟩
      · intro j2 hj2
        exact Option.noConfusion hj2
      · intro j2
        show (s.threads.set i (SFM.PC.doneE j (SFM.readVal s j))).countP
          (fun pc => SFM.isOwner pc j2) ≤ 1
        rw [countP_set_eq s.threads i (SFM.PC.doneE j (SFM.readVal s j))
          (fun pc => SFM.isOwner pc j2) hi (by rw [hpc]; rfl)]
        exact howners j2
      · intro i2 hi2
        have hi2' : i2 < s.threads.length := by simpa using hi2
        rw [List.getElem_set]
        by_cases hii : i = i2
        · rw [if_pos hii]
          exact ThreadCond_doneE oracle _ _ _ hjlt hrv
        · rw [if_neg hii]
          exact hthreads i2 hi2'
  | wake i j hi hpc hd =>
      have tci := hthreads i hi
      have hjref : SFM.refOf (s.threads[i]) = some j := by rw [hpc]; rfl
      have hjlt : j < s.vals.length := tci.1 j hjref
      have hval : s.vals.getD j none = some (oracle j) := hdone j hd
      have hrv : SFM.readVal s j = oracle j := by
        unfold SFM.readVal
        rw [hval]
        rfl
      refine ⟨hlen, hentry, hvals, hdone, ?_, ?_⟩
      · intro j2
        show (s.threads.set i (SFM.PC.doneW j (SFM.readVal s j))).countP
          (fun pc => SFM.isOwner pc j2) ≤ 1
        rw [countP_set_eq s.threads i (SFM.PC.doneW j (SFM.readVal s j))
          (fun pc => SFM.isOwner pc j2) hi (by rw [hpc]; rfl)]
        exact howners j2
      · intro i2 hi2
        have hi2' : i2 < s.threads.length := by simpa using hi2
        rw [List.getElem_set]
        by_cases hii : i = i2
        · rw [if_pos hii]
          exact ThreadCond_doneW oracle _ _ _ hjlt hrv
        · rw [if_neg hii]
          exact hthreads i2 hi2'

/-- Every reachable state satisfies the invariant. -/
theorem Reach_Inv (oracle : Nat → Nat) (K : Nat) {s : SFM.St}
    (h : SFM.Reach oracle K s) : SFM.Inv oracle s := by
  induction h with
  | refl => exact Inv_init oracle K
  | tail s s2 hr hst ih => exact Inv_step oracle hst ih

/-- C4, counterexample: two Do callers whose in-flight windows overlap
(both have entered Do from the initial state) can still trigger TWO
executions of fn and observe different results: the scheduler lets the
first caller create, execute and delete its call object entirely
before the second caller first inspects the map, so the second caller
creates a second object. The claim, as stated over overlapping calls
and all interleavings, is therefore false. -/
theorem C4_counterexample :
    ¬ (∀ s : SFM.St, SFM.Reach (fun j => j) 2 s → SFM.allFinished s = true →
        SFM.execCount s = 1
        ∧ ∀ pc ∈ s.threads, ∀ pc2 ∈ s.threads,
            SFM.resultOf pc = SFM.resultOf pc2) := by
  intro hclaim
  have r1 : SFM.Reach (fun j => j) 2
      { threads := [SFM.PC.running 0, SFM.PC.start], entry := some 0,
        vals := [none], done := [false] } :=
    SFM.Reach.tail _ _ SFM.Reach.refl
      (SFM.Step.create _ 0 (by decide) (by decide) (by decide))
  have r2 : SFM.Reach (fun j => j) 2
      { threads := [SFM.PC.deleting 0, SFM.PC.start], entry := some 0,
        vals := [some 0], done := [true] } :=
    SFM.Reach.tail _ _ r1 (SFM.Step.exec _ 0 0 (by decide) (by decide))
  have r3 : SFM.Reach (fun j => j) 2
      { threads := [SFM.PC.doneE 0 0, SFM.PC.start], entry := none,
        vals := [some 0], done := [true] } :=
    SFM.Reach.tail _ _ r2 (SFM.Step.del _ 0 0 (by decide) (by decide))
  have r4 : SFM.Reach (fun j => j) 2
      { threads := [SFM.PC.doneE 0 0, SFM.PC.running 1], entry := some 1,
        vals := [some 0, none], done := [true, false] } :=
    SFM.Reach.tail _ _ r3 (SFM.Step.create _ 1 (by decide) (by decide) (by decide))
  have r5 : SFM.Reach (fun j => j) 2
      { threads := [SFM.PC.doneE 0 0, SFM.PC.deleting 1], entry := some 1,
        vals := [some 0, some 1], done := [true, true] } :=
    SFM.Reach.tail _ _ r4 (SFM.Step.exec _ 1 1 (by decide) (by decide))
  have r6 : SFM.Reach (fun j => j) 2
      { threads := [SFM.PC.doneE 0 0, SFM.PC.doneE 1 1], entry := none,
        vals := [some 0, some 1], done := [true, true] } :=
    SFM.Reach.tail _ _ r5 (SFM.Step.del _ 1 1 (by decide) (by decide))
  obtain ⟨hexec, hsame⟩ := hclaim _ r6 (by decide)
  exact absurd hexec (by decide)

/-- C4, amended: in every interleaving of any number of Do callers for
one key, (a) every caller that finishes returns exactly the value fn
produced for the call object that caller joined, so (c) any two
callers that joined the SAME call object return the same result; and
(b) each call object has at most one owning executor, so fn runs at
most once per object. What the counterexample removes from the
original claim is only this: overlapping callers need not share one
object — a caller arriving after the previous object was deleted
starts a fresh execution. -/
theorem C4_amended (oracle : Nat → Nat) (K : Nat) (s : SFM.St)
    (h : SFM.Reach oracle K s) :
    (∀ i, (hi : i < s.threads.length) → ∀ j v,
        (s.threads[i] = SFM.PC.doneE j v ∨ s.threads[i] = SFM.PC.doneW j v) →
        v = oracle j)
    ∧ (∀ j, SFM.owners s j ≤ 1)
    ∧ (∀ i i2, (hi : i < s.threads.length) → (hi2 : i2 < s.threads.length) →
        ∀ j v v2,
        (s.threads[i] = SFM.PC.doneE j v ∨ s.threads[i] = SFM.PC.doneW j v) →
        (s.threads[i2] = SFM.PC.doneE j v2 ∨ s.threads[i2] = SFM.PC.doneW j v2) →
        v = v2) := by
  obtain ⟨-, -, -, -, howners, hthreads⟩ := Reach_Inv oracle K h
  have hval : ∀ i, (hi : i < s.threads.length) → ∀ j v,
      (s.threads[i] = SFM.PC.doneE j v ∨ s.threads[i] = SFM.PC.doneW j v) →
      v = oracle j := fun i hi j v hj => (hthreads i hi).2.2.2 j v hj
  refine ⟨hval, howners, ?_⟩
  intro i i2 hi hi2 j v v2 h1 h2
  rw [hval i hi j v h1, hval i2 hi2 j v2 h2]

/-- C4 witness: the amended theorem applied to the (reachable) initial
single-caller state. -/
theorem C4_witness :
    SFM.Reach (fun j2 => j2) 1 (SFM.init 1)
    ∧ ((∀ i, (hi : i < (SFM.init 1).threads.length) → ∀ j v,
          ((SFM.init 1).threads[i] = SFM.PC.doneE j v
           ∨ (SFM.init 1).threads[i] = SFM.PC.doneW j v) →
          v = (fun j2 => j2) j)
       ∧ (∀ j, SFM.owners (SFM.init 1) j ≤ 1)
       ∧ (∀ i i2, (hi : i < (SFM.init 1).threads.length) →
            (hi2 : i2 < (SFM.init 1).threads.length) → ∀ j v v2,
            ((SFM.init 1).threads[i] = SFM.PC.doneE j v
             ∨ (SFM.init 1).threads[i] = SFM.PC.doneW j v) →
            ((SFM.init 1).threads[i2] = SFM.PC.doneE j v2
             ∨ (SFM.init 1).threads[i2] = SFM.PC.doneW j v2) →
            v = v2)) :=
  ⟨SFM.Reach.refl, C4_amended (fun j2 => j2) 1 (SFM.init 1) SFM.Reach.refl⟩
